import Mathlib

/-!
Verification of the sbrk-based free-list allocator in `src/memoryalloc.c`.

The allocator keeps a singly linked list of block headers carved out of a
monotonically growing arena (the program break).  We embed it shallowly:

* addresses and sizes are natural numbers (`size_t` arithmetic is unbounded
  except in `calloc`, whose multiplication is reduced modulo `2 ^ 64` exactly
  where the C code's overflow check depends on wraparound);
* the heap is an association list from header addresses to header records,
  standing for the headers that live below the current break;
* `sbrk` success/failure is an explicit `growOk : Bool` parameter, a call to
  `sbrk n` returns the previous break and advances it, `sbrk 0` reads the
  break, and a negative `sbrk` lowers the break — lowering it past a header
  destroys that header, which we model by removing its heap entry;
* payload bytes are a second association list so that `memset`/`memcpy`
  effects (and their absence on failure paths) are visible in the state;
* reading through an invalid pointer is undefined behaviour in C; the model
  leaves the state unchanged and fails in those branches, and every theorem
  below carries hypotheses that keep it away from them.
-/

namespace MemoryAlloc

/-! ### C data layout

`union header` from the source, laid out by the LP64 ABI rules the file's own
comments assume (`size_t` 8 bytes, `unsigned` 4 bytes, pointers 8 bytes).
Each struct field is placed at the next offset aligned to the field's
alignment; the struct is padded to a multiple of its largest field alignment;
a union takes the maximum member size, padded to the union's alignment. -/

def alignUp (n a : Nat) : Nat := (n + a - 1) / a * a

def sizetBytes : Nat := 8

def unsignedBytes : Nat := 4

def pointerBytes : Nat := 8

/-- End offset after laying out fields (size, alignment) left to right. -/
def fieldsEnd : Nat → List (Nat × Nat) → Nat
  | off, [] => off
  | off, (sz, al) :: rest => fieldsEnd (alignUp off al + sz) rest

def fieldsAlign (fs : List (Nat × Nat)) : Nat := fs.foldr (fun f m => max f.2 m) 1

def cStructSize (fs : List (Nat × Nat)) : Nat := alignUp (fieldsEnd 0 fs) (fieldsAlign fs)

/-- The `metadata` struct of `union header`: `size_t size; unsigned is_free;
union header *next;`. -/
def metadataFields : List (Nat × Nat) :=
  [(sizetBytes, sizetBytes), (unsignedBytes, unsignedBytes), (pointerBytes, pointerBytes)]

/-- `typedef char alignment[16]`, the union's second member. -/
def stubBytes : Nat := 16

/-- `sizeof(union header)`: max of the two member sizes, padded to the union
alignment.  The payload returned by the allocator sits exactly this many
bytes past the header (`header + 1` in the C source). -/
def headerSize : Nat :=
  alignUp (max (cStructSize metadataFields) stubBytes) (max (fieldsAlign metadataFields) 1)

/-- One `union header` value: `metadata.size`, `metadata.is_free`
(the C `unsigned` used as a boolean), `metadata.next`. -/
structure Header where
  size : Nat
  is_free : Bool
  next : Option Nat
deriving DecidableEq

abbrev HeapT := List (Nat × Header)

abbrev DataT := List (Nat × Nat)

/-- First-match association-list lookup (a read of the cell at address `a`). -/
def lookupA {α : Type} : List (Nat × α) → Nat → Option α
  | [], _ => none
  | (b, v) :: rest, a => if b = a then some v else lookupA rest a

/-- Overwrite the cell at `a` (append it when absent). -/
def updateA {α : Type} : List (Nat × α) → Nat → α → List (Nat × α)
  | [], a, v => [(a, v)]
  | (b, w) :: rest, a, v => if b = a then (b, v) :: rest else (b, w) :: updateA rest a v

/-- Drop the cell at `a` (the memory holding it was returned to the system). -/
def removeA {α : Type} : List (Nat × α) → Nat → List (Nat × α)
  | [], _ => []
  | (b, w) :: rest, a => if b = a then rest else (b, w) :: removeA rest a

/-- Allocator state: headers below the break, payload bytes, the program
break `brk`, and the globals `head` and `tail` from the source. -/
structure AllocState where
  heap : HeapT
  data : DataT
  brk : Nat
  head : Option Nat
  tail : Option Nat
deriving DecidableEq

/-- `header->metadata.is_free = v` through a header pointer. -/
def setIsFree (heap : HeapT) (a : Nat) (v : Bool) : HeapT :=
  match lookupA heap a with
  | some hd => updateA heap a { hd with is_free := v }
  | none => heap

/-- `header->metadata.next = n` through a header pointer. -/
def setNextAt (heap : HeapT) (a : Nat) (n : Option Nat) : HeapT :=
  match lookupA heap a with
  | some hd => updateA heap a { hd with next := n }
  | none => heap

/-- `header->metadata.size` read through a header pointer (0 on an invalid
read, which is undefined behaviour in the C source). -/
def readSizeAt (heap : HeapT) (a : Nat) : Nat :=
  match lookupA heap a with
  | some hd => hd.size
  | none => 0

/-- The `while(curr)` loop of `check_for_block`, fuelled; the fuel picked in
`check_for_block` covers every chain the verified states can exhibit. -/
def check_for_block_go (heap : HeapT) (size : Nat) : Nat → Option Nat → Option Nat
  | 0, _ => none
  | _ + 1, none => none
  | fuel + 1, some a =>
    match lookupA heap a with
    | none => none
    | some hd =>
      if hd.is_free = true ∧ size ≤ hd.size then some a
      else check_for_block_go heap size fuel hd.next

/-- `check_for_block`: first-fit scan from `head` in link order. -/
def check_for_block (s : AllocState) (size : Nat) : Option Nat :=
  check_for_block_go s.heap size (s.heap.length + 1) s.head

/-- `malloc`: zero size refused; else first-fit reuse (flip `is_free` off and
return the payload); else `sbrk(sizeof(header_t) + size)` — on failure return
`NULL` with the state untouched, on success build the header at the old break
and append it to the list (`head` if empty, `tail->next` otherwise). -/
def malloc (growOk : Bool) (s : AllocState) (size : Nat) : Option Nat × AllocState :=
  if size = 0 then (none, s)
  else
    match check_for_block s size with
    | some a => (some (a + headerSize), { s with heap := setIsFree s.heap a false })
    | none =>
      if growOk then
        let block := s.brk
        let s₁ : AllocState :=
          { s with brk := s.brk + (headerSize + size),
                   heap := updateA s.heap block ⟨size, false, none⟩ }
        let s₂ := if s₁.head = none then { s₁ with head := some block } else s₁
        let s₃ :=
          match s₂.tail with
          | some t => { s₂ with heap := setNextAt s₂.heap t (some block) }
          | none => s₂
        (some (block + headerSize), { s₃ with tail := some block })
      else (none, s)

/-- The `while(tmp)` loop in `free` that retargets the tail: the node whose
`next` equals the current `tail` gets `next = NULL` and becomes the new
`tail`; the loop then advances through the just-written `NULL` and stops. -/
def freeScanGo : AllocState → Nat → Option Nat → AllocState
  | s, 0, _ => s
  | s, _ + 1, none => s
  | s, fuel + 1, some t =>
    match lookupA s.heap t with
    | none => s
    | some hd =>
      if hd.next = s.tail then
        freeScanGo
          { s with heap := updateA s.heap t { hd with next := none }, tail := some t }
          fuel none
      else freeScanGo s fuel hd.next

/-- `free`: `NULL` is a no-op; the header sits one `headerSize` below the
payload; if the payload end equals the break (`sbrk(0)`), drop the block —
resetting `head`/`tail` when it is the sole block, otherwise rescanning for
the predecessor — and lower the break by `sizeof(header_t) + size` (the size
is re-read through the header pointer, after the scan, as the C code does);
otherwise just mark the block free. -/
def free (s : AllocState) (block : Option Nat) : AllocState :=
  match block with
  | none => s
  | some b =>
    match lookupA s.heap (b - headerSize) with
    | none => s
    | some hd =>
      if b + hd.size = s.brk then
        let s₁ :=
          if s.head = s.tail then { s with head := none, tail := none }
          else freeScanGo s (s.heap.length + 1) s.head
        { s₁ with heap := removeA s₁.heap (b - headerSize),
                  brk := s₁.brk - (headerSize + readSizeAt s₁.heap (b - headerSize)) }
      else { s with heap := setIsFree s.heap (b - headerSize) true }

/-- `size_t` wraps at `2 ^ 64` on the LP64 target. -/
def W : Nat := 2 ^ 64

/-- `memset(block, 0, total)` on the byte map. -/
def memsetZeroData (d : DataT) (b : Nat) : Nat → DataT
  | 0 => d
  | n + 1 => updateA (memsetZeroData d b n) (b + n) 0

def readByte (d : DataT) (a : Nat) : Nat := (lookupA d a).getD 0

/-- `memcpy(dst, src, len)` for the non-overlapping copy in `realloc`. -/
def memcpyData (d : DataT) (dst src : Nat) : Nat → DataT
  | 0 => d
  | n + 1 => updateA (memcpyData d dst src n) (dst + n) (readByte d (src + n))

/-- `calloc`: zero count or element size refused; `total = num * esize` in
wrapping `size_t` arithmetic, rejected when dividing it back by `num` does
not reproduce `esize`; otherwise `malloc(total)` and zero-fill on success. -/
def calloc (growOk : Bool) (s : AllocState) (num esize : Nat) : Option Nat × AllocState :=
  if num = 0 ∨ esize = 0 then (none, s)
  else
    let total := num * esize % W
    if esize ≠ total / num then (none, s)
    else
      match malloc growOk s total with
      | (none, s₁) => (none, s₁)
      | (some b, s₁) => (some b, { s₁ with data := memsetZeroData s₁.data b total })

/-- `realloc`: `NULL` block or zero size falls through to `malloc(size)`;
a block whose recorded capacity already suffices is returned as is; otherwise
`malloc(size)`, and only if that succeeds copy the old capacity's bytes
(the length re-read through the old header) and `free` the old block. -/
def realloc (growOk : Bool) (s : AllocState) (block : Option Nat) (size : Nat) :
    Option Nat × AllocState :=
  match block with
  | none => malloc growOk s size
  | some b =>
    if size = 0 then malloc growOk s size
    else
      match lookupA s.heap (b - headerSize) with
      | none => (none, s)
      | some hd =>
        if hd.size ≥ size then (some b, s)
        else
          match malloc growOk s size with
          | (none, s₁) => (none, s₁)
          | (some rb, s₁) =>
            let s₂ := { s₁ with data := memcpyData s₁.data rb b (readSizeAt s₁.heap (b - headerSize)) }
            (some rb, free s₂ (some b))

/-! ### Chains and the spec-side first-fit search -/

/-- `chainOK heap cur l` holds when following `next` links from `cur` visits
exactly the address/header pairs of `l` and ends at a null link. -/
def chainOK (heap : HeapT) : Option Nat → List (Nat × Header) → Bool
  | none, [] => true
  | none, _ :: _ => false
  | some _, [] => false
  | some a, (b, hd) :: rest =>
    decide (a = b) && decide (lookupA heap a = some hd) && chainOK heap hd.next rest

/-- Spec-side definition, from the words of the specification: the first
block in list order with `is_free = true` and capacity at least `size`.
`check_for_block` is proved to refine it on realized chains. -/
def firstFitIn (size : Nat) : List (Nat × Header) → Option Nat
  | [] => none
  | (a, hd) :: rest => if hd.is_free = true ∧ size ≤ hd.size then some a else firstFitIn size rest

/-! ### Well-formed states

The structural facts the specification states as invariants, phrased over a
list `l` enumerating the chain from `head`. -/

/-- The addresses that own a cell. -/
def keys {α : Type} (h : List (Nat × α)) : List Nat := h.map Prod.fst

/-- Consecutive chain entries are physically adjacent: each block's payload
end is the next block's header address. -/
def contigOK : List (Nat × Header) → Bool
  | [] => true
  | [_] => true
  | p :: q :: rest =>
    decide (p.1 + headerSize + p.2.size = q.1) && contigOK (q :: rest)

/-- The last block's payload ends exactly at the break. -/
def lastEndOK (l : List (Nat × Header)) (brk : Nat) : Bool :=
  match l.getLast? with
  | none => true
  | some q => decide (q.1 + headerSize + q.2.size = brk)

/-- Rewrite of the one chain entry at `b` when its `is_free` flag is set. -/
def flipFree (b : Nat) (v : Bool) (q : Nat × Header) : Nat × Header :=
  if q.1 = b then (q.1, ⟨q.2.size, v, q.2.next⟩) else q

/-- Well-formedness: the chain from `head` realizes `l`, `tail` is its last
node, the heap holds exactly the chain's headers (with unique addresses),
blocks tile the arena contiguously, and the last payload ends at the break. -/
def WF (s : AllocState) (l : List (Nat × Header)) : Prop :=
  chainOK s.heap s.head l = true ∧
  s.tail = (keys l).getLast? ∧
  (∀ b ∈ keys s.heap, b ∈ keys l) ∧
  (keys s.heap).Nodup ∧
  contigOK l = true ∧
  lastEndOK l s.brk = true

instance (s : AllocState) (l : List (Nat × Header)) : Decidable (WF s l) := by
  unfold WF
  infer_instance

/-- The invariants exactly as the specification words them: `head` is empty
iff `tail` is empty iff the arena has zero blocks, and the linked sequence
from `head` visits blocks in strictly increasing address order, ending at
`tail` whose `next` link is empty. -/
def ListInv (s : AllocState) (l : List (Nat × Header)) : Prop :=
  chainOK s.heap s.head l = true ∧
  (s.head = none ↔ l = []) ∧
  (s.tail = none ↔ l = []) ∧
  ((∀ a, lookupA s.heap a = none) ↔ l = []) ∧
  List.Chain' (fun p q => p.1 < q.1) l ∧
  s.tail = (keys l).getLast? ∧
  (∀ q, l.getLast? = some q → q.2.next = none)

/-- Some enumeration of the blocks witnesses the specification's invariants. -/
def Inv (s : AllocState) : Prop := ∃ l, ListInv s l

/-! ### Example states used by the witnesses -/

/-- One free block of capacity 10 at address 100; its payload ends at the
break 134. -/
def exOneFree : AllocState :=
  ⟨[(100, ⟨10, true, none⟩)], [], 134, some 100, some 100⟩

/-- Two allocated blocks: capacity 10 at 100 linked to capacity 20 at 134,
whose payload ends at the break 178. -/
def exTwoUsed : AllocState :=
  ⟨[(100, ⟨10, false, some 134⟩), (134, ⟨20, false, none⟩)], [], 178, some 100, some 134⟩

/-- Two free blocks: capacity 10 at 100 and capacity 50 at 134; both fit a
small request, and first fit must pick 100. -/
def exTwoFree : AllocState :=
  ⟨[(100, ⟨10, true, some 134⟩), (134, ⟨50, true, none⟩)], [], 208, some 100, some 134⟩

/-! ### Association-list cell lemmas -/

@[simp] theorem keys_nil {α : Type} : keys ([] : List (Nat × α)) = [] := rfl

@[simp] theorem keys_cons {α : Type} (q : Nat × α) (rest : List (Nat × α)) :
    keys (q :: rest) = q.1 :: keys rest := rfl

theorem lookupA_updateA_self {α : Type} (h : List (Nat × α)) (a : Nat) (v : α) :
    lookupA (updateA h a v) a = some v := by
  induction h with
  | nil => simp [updateA, lookupA]
  | cons p rest ih =>
    obtain ⟨b, w⟩ := p
    by_cases hb : b = a
    · simp [updateA, hb, lookupA]
    · simp [updateA, hb, lookupA, ih]

theorem lookupA_updateA_ne {α : Type} (h : List (Nat × α)) (a b : Nat) (v : α)
    (hne : b ≠ a) : lookupA (updateA h a v) b = lookupA h b := by
  have hab : ¬a = b := fun hh => hne hh.symm
  induction h with
  | nil => simp [updateA, lookupA, hab]
  | cons p rest ih =>
    obtain ⟨c, w⟩ := p
    by_cases hc : c = a
    · subst hc
      simp [updateA, lookupA, hab]
    · simp [updateA, hc, lookupA, ih]

theorem lookupA_removeA_ne {α : Type} (h : List (Nat × α)) (a b : Nat)
    (hne : b ≠ a) : lookupA (removeA h a) b = lookupA h b := by
  have hab : ¬a = b := fun hh => hne hh.symm
  induction h with
  | nil => simp [removeA]
  | cons p rest ih =>
    obtain ⟨c, w⟩ := p
    by_cases hc : c = a
    · subst hc
      simp [removeA, lookupA, hab]
    · simp [removeA, hc, lookupA, ih]

theorem mem_keys_of_lookupA {α : Type} {h : List (Nat × α)} {a : Nat} {v : α}
    (hl : lookupA h a = some v) : a ∈ keys h := by
  induction h with
  | nil => simp [lookupA] at hl
  | cons p rest ih =>
    obtain ⟨c, w⟩ := p
    by_cases hc : c = a
    · simp [keys_cons, hc.symm]
    · rw [lookupA, if_neg hc] at hl
      rw [keys_cons]
      exact List.mem_cons_of_mem _ (ih hl)

theorem lookupA_eq_none_of_not_mem {α : Type} {h : List (Nat × α)} {a : Nat}
    (ha : a ∉ keys h) : lookupA h a = none := by
  induction h with
  | nil => rfl
  | cons p rest ih =>
    obtain ⟨c, w⟩ := p
    rw [keys_cons, List.mem_cons, not_or] at ha
    rw [lookupA, if_neg (fun hh => ha.1 hh.symm)]
    exact ih ha.2

theorem lookupA_isSome_of_mem {α : Type} {h : List (Nat × α)} {a : Nat}
    (ha : a ∈ keys h) : (lookupA h a).isSome := by
  induction h with
  | nil => simp [keys] at ha
  | cons p rest ih =>
    obtain ⟨c, w⟩ := p
    by_cases hc : c = a
    · simp [lookupA, hc]
    · rw [keys_cons, List.mem_cons] at ha
      rcases ha with ha | ha
      · exact absurd ha.symm hc
      · simpa [lookupA, hc] using ih ha

theorem keys_updateA_of_mem {α : Type} {h : List (Nat × α)} {a : Nat} (v : α)
    (ha : a ∈ keys h) : keys (updateA h a v) = keys h := by
  induction h with
  | nil => simp [keys] at ha
  | cons p rest ih =>
    obtain ⟨c, w⟩ := p
    by_cases hc : c = a
    · simp [updateA, hc]
    · rw [keys_cons, List.mem_cons] at ha
      rcases ha with ha | ha
      · exact absurd ha.symm hc
      · simp [updateA, hc, ih ha]

theorem keys_updateA_of_not_mem {α : Type} {h : List (Nat × α)} {a : Nat} (v : α)
    (ha : a ∉ keys h) : keys (updateA h a v) = keys h ++ [a] := by
  induction h with
  | nil => simp [updateA, keys]
  | cons p rest ih =>
    obtain ⟨c, w⟩ := p
    rw [keys_cons, List.mem_cons, not_or] at ha
    rw [updateA, if_neg (fun hh => ha.1 hh.symm)]
    simp [keys_cons, ih ha.2]

theorem keys_removeA_sub {α : Type} (h : List (Nat × α)) (a b : Nat)
    (hb : b ∈ keys (removeA h a)) : b ∈ keys h := by
  induction h with
  | nil => simp [removeA] at hb
  | cons p rest ih =>
    obtain ⟨c, w⟩ := p
    by_cases hc : c = a
    · rw [removeA, if_pos hc] at hb
      exact List.mem_cons_of_mem _ hb
    · rw [removeA, if_neg hc, keys_cons, List.mem_cons] at hb
      rw [keys_cons, List.mem_cons]
      rcases hb with hb | hb
      · exact Or.inl hb
      · exact Or.inr (ih hb)

theorem nodup_keys_removeA {α : Type} (h : List (Nat × α)) (a : Nat)
    (hnd : (keys h).Nodup) : (keys (removeA h a)).Nodup := by
  induction h with
  | nil => simp [removeA]
  | cons p rest ih =>
    obtain ⟨c, w⟩ := p
    rw [keys_cons] at hnd
    obtain ⟨hcnot, hrest⟩ := List.nodup_cons.mp hnd
    by_cases hc : c = a
    · rw [removeA, if_pos hc]
      exact hrest
    · rw [removeA, if_neg hc, keys_cons]
      exact List.nodup_cons.mpr
        ⟨fun hmem => hcnot (keys_removeA_sub rest a c hmem), ih hrest⟩

theorem lookupA_removeA_self {α : Type} (h : List (Nat × α)) (a : Nat)
    (hnd : (keys h).Nodup) : lookupA (removeA h a) a = none := by
  induction h with
  | nil => rfl
  | cons p rest ih =>
    obtain ⟨c, w⟩ := p
    rw [keys_cons] at hnd
    obtain ⟨hcnot, hrest⟩ := List.nodup_cons.mp hnd
    by_cases hc : c = a
    · rw [removeA, if_pos hc]
      subst hc
      exact lookupA_eq_none_of_not_mem hcnot
    · rw [removeA, if_neg hc, lookupA, if_neg hc]
      exact ih hrest

/-- A `malloc` that reports failure has not touched the state. -/
theorem malloc_eq_none (growOk : Bool) (s : AllocState) (size : Nat)
    (h : (malloc growOk s size).1 = none) : malloc growOk s size = (none, s) := by
  unfold malloc at h ⊢
  by_cases hsz : size = 0
  · simp [hsz]
  · simp only [if_neg hsz] at h ⊢
    cases hc : check_for_block s size with
    | some a => simp [hc] at h
    | none =>
      cases growOk with
      | true => simp [hc] at h
      | false => simp [hc]

/-! ### Chains realize the linked list -/

theorem chainOK_keys_sub {heap : HeapT} :
    ∀ {l : List (Nat × Header)} {cur : Option Nat},
      chainOK heap cur l = true → ∀ b ∈ keys l, b ∈ keys heap := by
  intro l
  induction l with
  | nil => intro cur _ b hb; simp [keys] at hb
  | cons p rest ih =>
    obtain ⟨a, hd⟩ := p
    intro cur hch b hb
    cases cur with
    | none => simp [chainOK] at hch
    | some c =>
      simp only [chainOK, Bool.and_eq_true, decide_eq_true_eq] at hch
      obtain ⟨⟨hca, hlk⟩, hrest⟩ := hch
      subst hca
      rw [keys_cons, List.mem_cons] at hb
      rcases hb with hb | hb
      · subst hb; exact mem_keys_of_lookupA hlk
      · exact ih hrest b hb

@[simp] theorem keys_append {α : Type} (l₁ l₂ : List (Nat × α)) :
    keys (l₁ ++ l₂) = keys l₁ ++ keys l₂ := List.map_append _ _ _

theorem chainOK_cons_inv {heap : HeapT} {cur : Option Nat} {x : Nat × Header}
    {xs : List (Nat × Header)} (h : chainOK heap cur (x :: xs) = true) :
    cur = some x.1 ∧ lookupA heap x.1 = some x.2 ∧ chainOK heap x.2.next xs = true := by
  obtain ⟨a, hd⟩ := x
  cases cur with
  | none => simp [chainOK] at h
  | some c =>
    simp only [chainOK, Bool.and_eq_true, decide_eq_true_eq] at h
    refine ⟨by rw [h.1.1], ?_, h.2⟩
    rw [← h.1.1]
    exact h.1.2

theorem chainOK_cons_of {heap : HeapT} {a : Nat} {hd : Header}
    {xs : List (Nat × Header)} (hlk : lookupA heap a = some hd)
    (hrest : chainOK heap hd.next xs = true) :
    chainOK heap (some a) ((a, hd) :: xs) = true := by
  simp [chainOK, hlk, hrest]

theorem chainOK_mem_lookup {heap : HeapT} :
    ∀ {l : List (Nat × Header)} {cur : Option Nat} {x : Nat × Header},
      chainOK heap cur l = true → x ∈ l → lookupA heap x.1 = some x.2 := by
  intro l
  induction l with
  | nil => intro cur x _ hx; simp at hx
  | cons q rest ih =>
    intro cur x hch hx
    obtain ⟨_, hlk, hrest⟩ := chainOK_cons_inv hch
    rcases List.mem_cons.mp hx with hx | hx
    · subst hx; exact hlk
    · exact ih hrest hx

theorem nodup_sub_length {l₁ l₂ : List Nat} (h₁ : l₁.Nodup)
    (hsub : ∀ a ∈ l₁, a ∈ l₂) : l₁.length ≤ l₂.length := by
  calc l₁.length = l₁.toFinset.card := (List.toFinset_card_of_nodup h₁).symm
    _ ≤ l₂.toFinset.card := by
        refine Finset.card_le_card ?_
        intro a ha
        rw [List.mem_toFinset] at ha ⊢
        exact hsub a ha
    _ ≤ l₂.length := l₂.toFinset_card_le

/-- A realized chain of distinct addresses is no longer than the heap. -/
theorem chainOK_length_le {heap : HeapT} {l : List (Nat × Header)} {cur : Option Nat}
    (hch : chainOK heap cur l = true) (hnd : (keys l).Nodup) :
    l.length ≤ heap.length := by
  have h1 : (keys l).length ≤ (keys heap).length :=
    nodup_sub_length hnd (chainOK_keys_sub hch)
  simpa [keys] using h1

/-- The `check_for_block` loop computes the spec-side first fit on any
realized chain, given enough fuel. -/
theorem check_for_block_go_eq (heap : HeapT) (size : Nat) :
    ∀ (l : List (Nat × Header)) (cur : Option Nat) (fuel : Nat),
      chainOK heap cur l = true → l.length ≤ fuel →
      check_for_block_go heap size fuel cur = firstFitIn size l := by
  intro l
  induction l with
  | nil =>
    intro cur fuel hch _
    cases cur with
    | none => cases fuel <;> rfl
    | some a => simp [chainOK] at hch
  | cons p rest ih =>
    obtain ⟨a, hd⟩ := p
    intro cur fuel hch hfuel
    cases cur with
    | none => simp [chainOK] at hch
    | some c =>
      simp only [chainOK, Bool.and_eq_true, decide_eq_true_eq] at hch
      obtain ⟨⟨hca, hlk⟩, hrest⟩ := hch
      subst hca
      cases fuel with
      | zero => exact absurd hfuel (by simp)
      | succ f =>
        simp only [check_for_block_go, hlk, firstFitIn]
        by_cases hfit : hd.is_free = true ∧ size ≤ hd.size
        · rw [if_pos hfit, if_pos hfit]
        · rw [if_neg hfit, if_neg hfit]
          exact ih hd.next f hrest (Nat.le_of_succ_le_succ hfuel)

/-- `check_for_block` refines the spec-side first-fit search. -/
theorem check_for_block_eq (s : AllocState) (size : Nat) (l : List (Nat × Header))
    (hch : chainOK s.heap s.head l = true) (hnd : (keys l).Nodup) :
    check_for_block s size = firstFitIn size l :=
  check_for_block_go_eq s.heap size l s.head (s.heap.length + 1) hch
    (Nat.le_succ_of_le (chainOK_length_le hch hnd))

/-- A first-fit hit names a chain entry, so its header is readable and free
with sufficient capacity. -/
theorem firstFitIn_found {heap : HeapT} :
    ∀ {l : List (Nat × Header)} {cur : Option Nat} {size : Nat} {b : Nat},
      chainOK heap cur l = true → firstFitIn size l = some b →
      ∃ hd, lookupA heap b = some hd ∧ hd.is_free = true ∧ size ≤ hd.size := by
  intro l
  induction l with
  | nil => intro cur size b _ hff; simp [firstFitIn] at hff
  | cons p rest ih =>
    obtain ⟨a, hd⟩ := p
    intro cur size b hch hff
    cases cur with
    | none => simp [chainOK] at hch
    | some c =>
      simp only [chainOK, Bool.and_eq_true, decide_eq_true_eq] at hch
      obtain ⟨⟨hca, hlk⟩, hrest⟩ := hch
      subst hca
      by_cases hfit : hd.is_free = true ∧ size ≤ hd.size
      · rw [firstFitIn, if_pos hfit] at hff
        obtain rfl : c = b := Option.some_injective _ hff
        exact ⟨hd, hlk, hfit.1, hfit.2⟩
      · rw [firstFitIn, if_neg hfit] at hff
        exact ih hrest hff

/-! ### The predecessor scan in free -/

theorem freeScanGo_none (s : AllocState) (fuel : Nat) : freeScanGo s fuel none = s := by
  cases fuel <;> rfl

/-- Behaviour of the `while(tmp)` rescan when the chain from `cur` ends in a
predecessor `p` followed by the current tail `a`: only `p` satisfies
`tmp->next == tail`, so the loop rewrites `p.next` to `NULL`, makes `p` the
tail, advances through the fresh `NULL` and stops. -/
theorem freeScanGo_spec (s : AllocState) (a : Nat) (ahd : Header)
    (htail : s.tail = some a) :
    ∀ (l₀ : List (Nat × Header)) (p : Nat) (phd : Header) (cur : Option Nat)
      (fuel : Nat),
      chainOK s.heap cur (l₀ ++ [(p, phd), (a, ahd)]) = true →
      (keys (l₀ ++ [(p, phd), (a, ahd)])).Nodup →
      l₀.length + 1 ≤ fuel →
      freeScanGo s fuel cur =
        { s with heap := updateA s.heap p ⟨phd.size, phd.is_free, none⟩,
                 tail := some p } := by
  intro l₀
  induction l₀ with
  | nil =>
    intro p phd cur fuel hch hnd hfuel
    obtain ⟨hcur, hlkp, hrest⟩ := chainOK_cons_inv hch
    obtain ⟨hnext, hlka, _⟩ := chainOK_cons_inv hrest
    cases fuel with
    | zero => omega
    | succ f =>
      rw [hcur]
      simp only [freeScanGo, hlkp]
      rw [if_pos (hnext.trans htail.symm)]
      exact freeScanGo_none _ f
  | cons q rest ih =>
    obtain ⟨c, chd⟩ := q
    intro p phd cur fuel hch hnd hfuel
    obtain ⟨hcur, hlkc, hrest⟩ := chainOK_cons_inv hch
    have hnd' : (keys (rest ++ [(p, phd), (a, ahd)])).Nodup :=
      (List.nodup_cons.mp (by simpa using hnd)).2
    have hne : ¬chd.next = s.tail := by
      rw [htail]
      cases rest with
      | nil =>
        obtain ⟨hnext, _, _⟩ := chainOK_cons_inv hrest
        rw [hnext]
        have hpa : p ≠ a := by
          simp only [List.nil_append, keys_cons, List.nodup_cons, List.mem_cons] at hnd'
          intro hh
          exact hnd'.1 (Or.inl hh)
        simpa using hpa
      | cons r rest' =>
        obtain ⟨hnext, _, _⟩ := chainOK_cons_inv hrest
        rw [hnext]
        have hmem : a ∈ keys (rest' ++ [(p, phd), (a, ahd)]) := by simp
        have hra : r.1 ≠ a := by
          simp only [List.cons_append, List.cons.injEq] at hnd' ⊢
          have : (keys ((r :: rest') ++ [(p, phd), (a, ahd)])).Nodup := hnd'
          obtain ⟨rr, hr⟩ := r
          simp only [List.cons_append, keys_cons, List.nodup_cons] at this
          intro hh
          exact this.1 (hh ▸ hmem)
        simpa using hra
    cases fuel with
    | zero => omega
    | succ f =>
      rw [hcur]
      simp only [freeScanGo, hlkc]
      rw [if_neg hne]
      exact ih p phd chd.next f hrest hnd' (by simpa using Nat.le_of_succ_le_succ hfuel)

/-! ### Invariant machinery for the state after each operation -/

theorem headerSize_pos : 0 < headerSize := by decide

theorem contigOK_iff : ∀ l : List (Nat × Header),
    contigOK l = true ↔ List.Chain' (fun p q => p.1 + headerSize + p.2.size = q.1) l
  | [] => by simp [contigOK]
  | [_] => by simp [contigOK]
  | p :: q :: rest => by
    simp only [contigOK, Bool.and_eq_true, decide_eq_true_eq, List.chain'_cons,
      contigOK_iff (q :: rest)]

theorem lastEndOK_some {l : List (Nat × Header)} {brk : Nat} {q : Nat × Header}
    (h : lastEndOK l brk = true) (hq : l.getLast? = some q) :
    q.1 + headerSize + q.2.size = brk := by
  unfold lastEndOK at h
  rw [hq] at h
  exact of_decide_eq_true h

theorem lastEndOK_intro {l : List (Nat × Header)} {brk : Nat}
    (h : ∀ q, l.getLast? = some q → q.1 + headerSize + q.2.size = brk) :
    lastEndOK l brk = true := by
  unfold lastEndOK
  cases hq : l.getLast? with
  | none => rfl
  | some q => exact decide_eq_true (h q hq)

theorem keys_nodup_of_contig {l : List (Nat × Header)} (h : contigOK l = true) :
    (keys l).Nodup := by
  have hc : List.Chain' (fun p q : Nat × Header => p.1 < q.1) l :=
    ((contigOK_iff l).mp h).imp fun a b hab => by
      have h1 : a.1 + headerSize + a.2.size = b.1 := hab
      have h2 := headerSize_pos
      omega
  have hk : List.Chain' (· < ·) (keys l) := by
    unfold keys
    exact (List.chain'_map Prod.fst).mpr hc
  have hp : List.Pairwise (· < ·) (keys l) := List.chain'_iff_pairwise.mp hk
  exact hp.imp Nat.ne_of_lt

theorem keys_lt_brk : ∀ (l : List (Nat × Header)) (brk : Nat),
    contigOK l = true → lastEndOK l brk = true → ∀ b ∈ keys l, b < brk
  | [], _ => by intro _ _ b hb; simp [keys] at hb
  | [q], brk => by
    intro _ hl b hb
    have hq : ([q] : List (Nat × Header)).getLast? = some q := rfl
    have hend := lastEndOK_some hl hq
    simp only [keys_cons, keys_nil, List.mem_singleton] at hb
    subst hb
    have := headerSize_pos
    omega
  | q :: r :: rest, brk => by
    intro hc hl b hb
    simp only [contigOK, Bool.and_eq_true, decide_eq_true_eq] at hc
    have hl' : lastEndOK (r :: rest) brk = true := by
      unfold lastEndOK at hl ⊢
      rwa [List.getLast?_cons_cons] at hl
    have ih := keys_lt_brk (r :: rest) brk hc.2 hl'
    simp only [keys_cons, List.mem_cons] at hb
    rcases hb with hb | hb
    · subst hb
      have hr : r.1 < brk := ih r.1 (by simp)
      have h1 := hc.1
      have := headerSize_pos
      omega
    · exact ih b (by simpa using hb)

theorem chainOK_last_next {heap : HeapT} :
    ∀ {l : List (Nat × Header)} {cur : Option Nat} {q : Nat × Header},
      chainOK heap cur l = true → l.getLast? = some q → q.2.next = none := by
  intro l
  induction l with
  | nil => intro cur q _ hq; simp at hq
  | cons x rest ih =>
    intro cur q hch hq
    obtain ⟨_, _, hrest⟩ := chainOK_cons_inv hch
    cases rest with
    | nil =>
      have hxq : x = q := by
        have hx : ([x] : List (Nat × Header)).getLast? = some x := rfl
        rw [hx] at hq
        exact Option.some_injective _ hq
      rw [← hxq]
      cases hnx : x.2.next with
      | none => rfl
      | some d => rw [hnx] at hrest; simp [chainOK] at hrest
    | cons y rest' =>
      rw [List.getLast?_cons_cons] at hq
      exact ih hrest hq

theorem flipFree_fst (b : Nat) (v : Bool) (q : Nat × Header) :
    (flipFree b v q).1 = q.1 := by
  unfold flipFree; split <;> rfl

theorem flipFree_size (b : Nat) (v : Bool) (q : Nat × Header) :
    (flipFree b v q).2.size = q.2.size := by
  unfold flipFree; split <;> rfl

theorem keys_map_flip (b : Nat) (v : Bool) (l : List (Nat × Header)) :
    keys (l.map (flipFree b v)) = keys l := by
  unfold keys
  rw [List.map_map]
  exact List.map_congr_left fun q _ => flipFree_fst b v q

theorem contigOK_map_flip (b : Nat) (v : Bool) : ∀ l : List (Nat × Header),
    contigOK (l.map (flipFree b v)) = contigOK l
  | [] => rfl
  | [_] => rfl
  | p :: q :: rest => by
    have ih := contigOK_map_flip b v (q :: rest)
    simp only [List.map_cons] at ih ⊢
    simp only [contigOK, flipFree_fst, flipFree_size, ih]

theorem lastEndOK_map_flip (b : Nat) (v : Bool) (l : List (Nat × Header)) (brk : Nat) :
    lastEndOK (l.map (flipFree b v)) brk = lastEndOK l brk := by
  unfold lastEndOK
  rw [List.getLast?_map]
  cases l.getLast? with
  | none => rfl
  | some q => simp [flipFree_fst, flipFree_size]

theorem chainOK_flipFree {heap : HeapT} (b : Nat) (hd₀ : Header) (v : Bool)
    (hlk : lookupA heap b = some hd₀) :
    ∀ (l : List (Nat × Header)) (cur : Option Nat), chainOK heap cur l = true →
      chainOK (updateA heap b ⟨hd₀.size, v, hd₀.next⟩) cur (l.map (flipFree b v)) = true := by
  intro l
  induction l with
  | nil =>
    intro cur h
    cases cur with
    | none => simp [chainOK]
    | some c => simp [chainOK] at h
  | cons q rest ih =>
    intro cur h
    obtain ⟨hcur, hlkq, hrest⟩ := chainOK_cons_inv h
    obtain ⟨aq, hq⟩ := q
    rw [hcur]
    by_cases hab : aq = b
    · subst hab
      have h2 : lookupA heap aq = some hq := hlkq
      rw [hlk] at h2
      have hq_eq : hq = hd₀ := (Option.some_injective _ h2).symm
      have hflip : flipFree aq v (aq, hq) = (aq, ⟨hq.size, v, hq.next⟩) := by
        simp [flipFree]
      rw [List.map_cons, hflip, hq_eq]
      refine chainOK_cons_of (lookupA_updateA_self _ _ _) ?_
      have hrest' : chainOK heap hd₀.next rest = true := by
        rw [← hq_eq]
        exact hrest
      exact ih hd₀.next hrest'
    · have hflip : flipFree b v (aq, hq) = (aq, hq) := by
        simp [flipFree, hab]
      rw [List.map_cons, hflip]
      refine chainOK_cons_of ?_ (ih hq.next hrest)
      rw [lookupA_updateA_ne heap b aq _ hab]
      exact hlkq

/-- Every invariant the specification claims follows from well-formedness. -/
theorem wf_listInv {s : AllocState} {l : List (Nat × Header)} (hwf : WF s l) :
    ListInv s l := by
  obtain ⟨hch, htl, hsub, hnd, hcg, hle⟩ := hwf
  refine ⟨hch, ?_, ?_, ?_, ?_, htl, ?_⟩
  · constructor
    · intro hh
      cases l with
      | nil => rfl
      | cons x rest =>
        obtain ⟨hcur, _, _⟩ := chainOK_cons_inv hch
        rw [hh] at hcur
        simp at hcur
    · intro hl
      subst hl
      cases hhd : s.head with
      | none => rfl
      | some c => rw [hhd] at hch; simp [chainOK] at hch
  · rw [htl]
    constructor
    · intro h
      have hk : keys l = [] := List.getLast?_eq_none_iff.mp h
      unfold keys at hk
      exact List.map_eq_nil_iff.mp hk
    · intro hl; subst hl; rfl
  · constructor
    · intro hall
      cases l with
      | nil => rfl
      | cons x rest =>
        obtain ⟨_, hlk, _⟩ := chainOK_cons_inv hch
        rw [hall x.1] at hlk
        simp at hlk
    · intro hl
      subst hl
      have hke : keys s.heap = [] := by
        cases hk : keys s.heap with
        | nil => rfl
        | cons c cs =>
          have hmem := hsub c (by rw [hk]; exact List.mem_cons_self c cs)
          simp [keys] at hmem
      have hheap : s.heap = [] := by
        unfold keys at hke
        exact List.map_eq_nil_iff.mp hke
      intro a
      rw [hheap]
      rfl
  · exact ((contigOK_iff l).mp hcg).imp fun a b hab => by
      have h1 : a.1 + headerSize + a.2.size = b.1 := hab
      have h2 := headerSize_pos
      omega
  · intro q hq
    exact chainOK_last_next hch hq

/-- Flipping one existing header's `is_free` flag (block reuse in `malloc`,
marking free in `free`) preserves well-formedness. -/
theorem wf_setFlag {s : AllocState} {l : List (Nat × Header)} (hwf : WF s l)
    {b : Nat} {hd₀ : Header} (hlk : lookupA s.heap b = some hd₀) (v : Bool) :
    WF { s with heap := updateA s.heap b ⟨hd₀.size, v, hd₀.next⟩ }
      (l.map (flipFree b v)) := by
  obtain ⟨hch, htl, hsub, hnd, hcg, hle⟩ := hwf
  have hbk : b ∈ keys s.heap := mem_keys_of_lookupA hlk
  have hkeys : keys (updateA s.heap b ⟨hd₀.size, v, hd₀.next⟩) = keys s.heap :=
    keys_updateA_of_mem _ hbk
  refine ⟨chainOK_flipFree b hd₀ v hlk l s.head hch, ?_, ?_, ?_, ?_, ?_⟩
  · show s.tail = (keys (l.map (flipFree b v))).getLast?
    rw [keys_map_flip]
    exact htl
  · intro x hx
    rw [keys_map_flip]
    refine hsub x ?_
    rwa [show keys ({ s with heap := updateA s.heap b ⟨hd₀.size, v, hd₀.next⟩} :
      AllocState).heap = keys s.heap from hkeys] at hx
  · show (keys (updateA s.heap b ⟨hd₀.size, v, hd₀.next⟩)).Nodup
    rwa [hkeys]
  · rw [contigOK_map_flip]
    exact hcg
  · show lastEndOK (l.map (flipFree b v)) s.brk = true
    rw [lastEndOK_map_flip]
    exact hle

/-- Appending a freshly carved block after the old tail: the new header is
written at the fresh address `blk` (the old break) and the old tail's `next`
is retargeted to it, extending the chain by one node. -/
theorem chainOK_snoc_extend {heap : HeapT} (blk : Nat) (nh : Header)
    (hnn : nh.next = none) :
    ∀ (l₁ : List (Nat × Header)) (t : Nat) (thd : Header) (cur : Option Nat),
      chainOK heap cur (l₁ ++ [(t, thd)]) = true →
      (∀ b ∈ keys (l₁ ++ [(t, thd)]), b ≠ blk) →
      (keys (l₁ ++ [(t, thd)])).Nodup →
      chainOK (updateA (updateA heap blk nh) t ⟨thd.size, thd.is_free, some blk⟩) cur
        (l₁ ++ [(t, ⟨thd.size, thd.is_free, some blk⟩), (blk, nh)]) = true := by
  intro l₁
  induction l₁ with
  | nil =>
    intro t thd cur hch hfresh _
    obtain ⟨hcur, hlkt, _⟩ := chainOK_cons_inv hch
    rw [hcur]
    have htb : t ≠ blk := hfresh t (by simp)
    refine chainOK_cons_of (lookupA_updateA_self _ _ _) ?_
    refine chainOK_cons_of ?_ ?_
    · rw [lookupA_updateA_ne _ t blk _ (fun hh => htb hh.symm)]
      exact lookupA_updateA_self _ _ _
    · rw [hnn]
      rfl
  | cons q l₁' ih =>
    intro t thd cur hch hfresh hnd
    obtain ⟨hcur, hlkq, hrest⟩ := chainOK_cons_inv hch
    rw [hcur]
    refine chainOK_cons_of ?_ ?_
    · have hqb : q.1 ≠ blk := hfresh q.1 (by simp)
      have hqt : q.1 ≠ t := by
        have h1 : (keys (q :: (l₁' ++ [(t, thd)]))).Nodup := by simpa using hnd
        have h2 := (List.nodup_cons.mp h1).1
        intro hh
        exact h2 (by rw [hh]; simp)
      rw [lookupA_updateA_ne _ t q.1 _ hqt, lookupA_updateA_ne _ blk q.1 _ hqb]
      exact hlkq
    · refine ih t thd q.2.next hrest ?_ ?_
      · intro x hx
        refine hfresh x ?_
        simp only [List.cons_append, keys_cons]
        exact List.mem_cons_of_mem _ hx
      · exact (List.nodup_cons.mp (by simpa using hnd)).2

/-- `malloc` preserves well-formedness: reuse flips one flag, growth appends
one fresh block after the old tail, failure leaves the state alone. -/
theorem malloc_wf (growOk : Bool) (s : AllocState) (size : Nat)
    {l : List (Nat × Header)} (hwf : WF s l) :
    ∃ l', WF (malloc growOk s size).2 l' := by
  obtain ⟨hch, htl, hsub, hnd, hcg, hle⟩ := hwf
  by_cases hsz : size = 0
  · exact ⟨l, by simpa [malloc, hsz] using ⟨hch, htl, hsub, hnd, hcg, hle⟩⟩
  · have hndl : (keys l).Nodup := keys_nodup_of_contig hcg
    have hcfb := check_for_block_eq s size l hch hndl
    cases hff : firstFitIn size l with
    | some b₀ =>
      obtain ⟨hd₀, hlk, _, _⟩ := firstFitIn_found hch hff
      have hc2 : check_for_block s size = some b₀ := hcfb.trans hff
      have hres : (malloc growOk s size).2 =
          { s with heap := updateA s.heap b₀ ⟨hd₀.size, false, hd₀.next⟩ } := by
        simp [malloc, hsz, hc2, setIsFree, hlk]
      exact ⟨l.map (flipFree b₀ false),
        hres ▸ wf_setFlag ⟨hch, htl, hsub, hnd, hcg, hle⟩ hlk false⟩
    | none =>
      have hc2 : check_for_block s size = none := hcfb.trans hff
      cases growOk with
      | false =>
        exact ⟨l, by simpa [malloc, hsz, hc2] using ⟨hch, htl, hsub, hnd, hcg, hle⟩⟩
      | true =>
        have hfresh : ∀ x ∈ keys l, x ≠ s.brk := fun x hx =>
          Nat.ne_of_lt (keys_lt_brk l s.brk hcg hle x hx)
        rcases List.eq_nil_or_concat l with hl | ⟨l₁, tq, hl⟩
        · subst hl
          have hhead : s.head = none := by
            cases hh : s.head with
            | none => rfl
            | some c => rw [hh] at hch; simp [chainOK] at hch
          have htail : s.tail = none := by rw [htl]; rfl
          have hheap : s.heap = [] := by
            cases hk : s.heap with
            | nil => rfl
            | cons c cs =>
              have hmem := hsub c.1 (by rw [hk]; simp)
              simp [keys] at hmem
          have hres : (malloc true s size).2 =
              ⟨[(s.brk, ⟨size, false, none⟩)], s.data, s.brk + (headerSize + size),
               some s.brk, some s.brk⟩ := by
            simp [malloc, hsz, hc2, hhead, htail, hheap, updateA]
          refine ⟨[(s.brk, ⟨size, false, none⟩)], ?_⟩
          rw [hres]
          refine ⟨?_, rfl, ?_, ?_, rfl, ?_⟩
          · exact chainOK_cons_of (by simp [lookupA]) rfl
          · intro x hx
            simpa using hx
          · simp [keys]
          · show lastEndOK [(s.brk, ⟨size, false, none⟩)] (s.brk + (headerSize + size)) = true
            unfold lastEndOK
            simp [Nat.add_assoc]
        · rw [List.concat_eq_append] at hl
          subst hl
          obtain ⟨t, thd⟩ := tq
          have htail : s.tail = some t := by
            rw [htl]
            simp [List.getLast?_concat]
          have hmem_t : (t, thd) ∈ l₁ ++ [(t, thd)] :=
            List.mem_append_right _ (by simp)
          have hlkt : lookupA s.heap t = some thd := chainOK_mem_lookup hch hmem_t
          have hheadne : ¬s.head = none := by
            cases l₁ with
            | nil =>
              obtain ⟨hcur, _, _⟩ := chainOK_cons_inv (show chainOK s.heap s.head
                ((t, thd) :: []) = true from hch)
              rw [hcur]; simp
            | cons x l₁' =>
              obtain ⟨hcur, _, _⟩ := chainOK_cons_inv (show chainOK s.heap s.head
                (x :: (l₁' ++ [(t, thd)])) = true from hch)
              rw [hcur]; simp
          have htb : t ≠ s.brk := hfresh t (by simp)
          have hbrk_not_mem : s.brk ∉ keys s.heap := by
            intro hmem
            exact hfresh s.brk (hsub s.brk hmem) rfl
          have hkeys_inner :
              keys (updateA s.heap s.brk ⟨size, false, none⟩) = keys s.heap ++ [s.brk] :=
            keys_updateA_of_not_mem _ hbrk_not_mem
          have ht_mem : t ∈ keys s.heap := mem_keys_of_lookupA hlkt
          have ht_mem2 : t ∈ keys (updateA s.heap s.brk ⟨size, false, none⟩) := by
            rw [hkeys_inner]
            exact List.mem_append_left _ ht_mem
          have hkeys_outer :
              keys (updateA (updateA s.heap s.brk ⟨size, false, none⟩) t
                ⟨thd.size, thd.is_free, some s.brk⟩) = keys s.heap ++ [s.brk] := by
            rw [keys_updateA_of_mem _ ht_mem2, hkeys_inner]
          have hres : (malloc true s size).2 =
              { s with heap := updateA (updateA s.heap s.brk ⟨size, false, none⟩) t
                          ⟨thd.size, thd.is_free, some s.brk⟩,
                       brk := s.brk + (headerSize + size),
                       tail := some s.brk } := by
            simp only [malloc, if_neg hsz, hc2]
            simp [hheadne, htail, setNextAt, lookupA_updateA_ne _ s.brk t _ htb, hlkt]
          refine ⟨l₁ ++ [(t, ⟨thd.size, thd.is_free, some s.brk⟩),
            (s.brk, ⟨size, false, none⟩)], ?_⟩
          rw [hres]
          refine ⟨?_, ?_, ?_, ?_, ?_, ?_⟩
          · exact chainOK_snoc_extend s.brk ⟨size, false, none⟩ rfl l₁ t thd s.head
              hch hfresh hndl
          · show some s.brk = (keys (l₁ ++ [(t, ⟨thd.size, thd.is_free, some s.brk⟩),
              (s.brk, ⟨size, false, none⟩)])).getLast?
            have h2 : keys (l₁ ++ [(t, (⟨thd.size, thd.is_free, some s.brk⟩ : Header)),
                (s.brk, (⟨size, false, none⟩ : Header))]) =
                (keys l₁ ++ [t]) ++ [s.brk] := by simp
            rw [h2, List.getLast?_concat]
          · intro x hx
            have hx2 : x ∈ keys (updateA (updateA s.heap s.brk ⟨size, false, none⟩) t
                ⟨thd.size, thd.is_free, some s.brk⟩) := hx
            rw [hkeys_outer] at hx2
            rcases List.mem_append.mp hx2 with hx3 | hx3
            · have hx4 := hsub x hx3
              simp only [keys_append, keys_cons, keys_nil, List.mem_append,
                List.mem_cons] at hx4 ⊢
              tauto
            · simp only [keys_append, keys_cons, keys_nil, List.mem_append,
                List.mem_cons]
              simp at hx3
              tauto
          · show (keys (updateA (updateA s.heap s.brk ⟨size, false, none⟩) t
                ⟨thd.size, thd.is_free, some s.brk⟩)).Nodup
            rw [hkeys_outer, List.nodup_append]
            refine ⟨hnd, by simp, ?_⟩
            intro a ha hb
            simp at hb
            subst hb
            exact hbrk_not_mem ha
          · apply (contigOK_iff _).mpr
            have hcg' := (contigOK_iff _).mp hcg
            obtain ⟨hC1, _, hC3⟩ := List.chain'_append.mp hcg'
            apply List.chain'_append.mpr
            refine ⟨hC1, ?_, ?_⟩
            · refine List.chain'_cons.mpr ⟨?_, List.chain'_singleton _⟩
              show t + headerSize + thd.size = s.brk
              have hlast : (l₁ ++ [(t, thd)]).getLast? = some (t, thd) :=
                List.getLast?_concat _
              exact lastEndOK_some hle hlast
            · intro x hx y hy
              have hy2 : y = (t, (⟨thd.size, thd.is_free, some s.brk⟩ : Header)) := by
                simp only [List.head?_cons, Option.mem_def, Option.some.injEq] at hy
                exact hy.symm
              subst hy2
              have h3 := hC3 x hx (t, thd) rfl
              simpa using h3
          · show lastEndOK (l₁ ++ [(t, ⟨thd.size, thd.is_free, some s.brk⟩),
              (s.brk, ⟨size, false, none⟩)]) (s.brk + (headerSize + size)) = true
            apply lastEndOK_intro
            intro q hq
            have h2 : (l₁ ++ [(t, (⟨thd.size, thd.is_free, some s.brk⟩ : Header)),
                (s.brk, (⟨size, false, none⟩ : Header))]).getLast? =
                some (s.brk, ⟨size, false, none⟩) := by
              rw [show l₁ ++ [(t, (⟨thd.size, thd.is_free, some s.brk⟩ : Header)),
                (s.brk, (⟨size, false, none⟩ : Header))] =
                (l₁ ++ [(t, ⟨thd.size, thd.is_free, some s.brk⟩)]) ++
                  [(s.brk, ⟨size, false, none⟩)] by simp]
              exact List.getLast?_concat _
            rw [h2] at hq
            obtain rfl := Option.some_injective _ hq.symm
            show s.brk + headerSize + size = s.brk + (headerSize + size)
            rw [Nat.add_assoc]

/-- Releasing the sole block (`head == tail`) whose payload ends at the
break: both list globals are reset and the arena shrinks by one block. -/
theorem free_sole_eq (s : AllocState) (a : Nat) (hd : Header)
    (hlk : lookupA s.heap a = some hd)
    (hend : a + headerSize + hd.size = s.brk)
    (hhead : s.head = some a) (htail : s.tail = some a) :
    free s (some (a + headerSize)) =
      { s with heap := removeA s.heap a,
               brk := s.brk - (headerSize + hd.size),
               head := none, tail := none } := by
  have hb : a + headerSize - headerSize = a := Nat.add_sub_cancel a headerSize
  simp only [free, hb, hlk]
  rw [if_pos hend, if_pos (hhead.trans htail.symm)]
  simp [readSizeAt, hlk]

/-- Releasing the tail block of a longer chain: the predecessor scan clears
the predecessor's link, retargets `tail`, and the arena shrinks. -/
theorem free_pred_eq (s : AllocState) (a : Nat) (hd : Header)
    (hlk : lookupA s.heap a = some hd)
    (hend : a + headerSize + hd.size = s.brk)
    (l₀ : List (Nat × Header)) (p : Nat) (phd : Header)
    (hch : chainOK s.heap s.head (l₀ ++ [(p, phd), (a, hd)]) = true)
    (hnd : (keys (l₀ ++ [(p, phd), (a, hd)])).Nodup)
    (htail : s.tail = some a) :
    free s (some (a + headerSize)) =
      { s with heap := removeA (updateA s.heap p ⟨phd.size, phd.is_free, none⟩) a,
               brk := s.brk - (headerSize + hd.size),
               tail := some p } := by
  have hb : a + headerSize - headerSize = a := Nat.add_sub_cancel a headerSize
  have hpa : p ≠ a := by
    have hsub : List.Sublist [p, a] (keys (l₀ ++ [(p, phd), (a, hd)])) := by
      simp only [keys_append, keys_cons, keys_nil]
      exact List.sublist_append_right _ _
    have h2 := hnd.sublist hsub
    rw [List.nodup_cons] at h2
    simpa using h2.1
  have hne : ¬s.head = s.tail := by
    rw [htail]
    cases l₀ with
    | nil =>
      obtain ⟨hhead, _, _⟩ := chainOK_cons_inv hch
      rw [hhead]
      simpa using hpa
    | cons q l₀' =>
      obtain ⟨hhead, _, _⟩ := chainOK_cons_inv hch
      rw [hhead]
      have hmem : a ∈ keys (l₀' ++ [(p, phd), (a, hd)]) := by simp
      have hq : q.1 ≠ a := by
        obtain ⟨qa, qh⟩ := q
        simp only [List.cons_append, keys_cons, List.nodup_cons] at hnd
        intro hh
        exact hnd.1 (hh ▸ hmem)
      simpa using hq
  have hlen : l₀.length + 1 ≤ s.heap.length + 1 := by
    have h1 := chainOK_length_le hch hnd
    simp only [List.length_append, List.length_cons, List.length_nil] at h1
    omega
  have hscan := freeScanGo_spec s a hd htail l₀ p phd s.head (s.heap.length + 1)
    hch hnd hlen
  simp only [free, hb, hlk]
  rw [if_pos hend, if_neg hne, hscan]
  simp [readSizeAt, lookupA_updateA_ne s.heap p a _ (fun hh => hpa hh.symm), hlk]

/-- A chain member whose payload ends at the break is the last block:
every earlier block's end is a later block's start, strictly below `brk`. -/
theorem end_eq_brk_last : ∀ (l : List (Nat × Header)) (brk : Nat),
    contigOK l = true → lastEndOK l brk = true →
    ∀ x : Nat × Header, x ∈ l → x.1 + headerSize + x.2.size = brk →
    ∃ l₁, l = l₁ ++ [x]
  | [], brk => by intro _ _ x hx _; simp at hx
  | [q], brk => by
    intro _ _ x hx _
    refine ⟨[], ?_⟩
    simp at hx
    rw [hx]
    rfl
  | q :: r :: rest, brk => by
    intro hc hl x hx hxe
    simp only [contigOK, Bool.and_eq_true, decide_eq_true_eq] at hc
    have hl' : lastEndOK (r :: rest) brk = true := by
      unfold lastEndOK at hl ⊢
      rwa [List.getLast?_cons_cons] at hl
    rcases List.mem_cons.mp hx with hx1 | hx1
    · exfalso
      have hr : r.1 < brk := keys_lt_brk (r :: rest) brk hc.2 hl' r.1 (by simp)
      have hadj := hc.1
      rw [hx1] at hxe
      omega
    · obtain ⟨l₁', hl₁⟩ := end_eq_brk_last (r :: rest) brk hc.2 hl' x hx1 hxe
      exact ⟨q :: l₁', by rw [List.cons_append, ← hl₁]⟩

theorem exists_of_mem_keys {α : Type} {l : List (Nat × α)} {a : Nat}
    (h : a ∈ keys l) : ∃ w, (a, w) ∈ l := by
  unfold keys at h
  obtain ⟨q, hq, hqa⟩ := List.mem_map.mp h
  refine ⟨q.2, ?_⟩
  rwa [show (a, q.2) = q from Prod.ext hqa.symm rfl]

/-- Cutting the last block off the chain: after the predecessor's `next` is
cleared and the tail's header destroyed, the shortened chain is realized. -/
theorem chainOK_retarget {heap : HeapT} (a : Nat) (ahd : Header) :
    ∀ (l₀ : List (Nat × Header)) (p : Nat) (phd : Header) (cur : Option Nat),
      chainOK heap cur (l₀ ++ [(p, phd), (a, ahd)]) = true →
      (keys (l₀ ++ [(p, phd), (a, ahd)])).Nodup →
      chainOK (removeA (updateA heap p ⟨phd.size, phd.is_free, none⟩) a) cur
        (l₀ ++ [(p, ⟨phd.size, phd.is_free, none⟩)]) = true := by
  intro l₀
  induction l₀ with
  | nil =>
    intro p phd cur hch hnd
    obtain ⟨hcur, hlkp, _⟩ := chainOK_cons_inv hch
    rw [hcur]
    have hpa : p ≠ a := by
      rw [List.nil_append, keys_cons, keys_cons, keys_nil] at hnd
      have h2 := (List.nodup_cons.mp hnd).1
      intro hh
      exact h2 (by rw [hh]; simp)
    refine chainOK_cons_of ?_ rfl
    rw [lookupA_removeA_ne _ a p hpa]
    exact lookupA_updateA_self _ _ _
  | cons q l₀' ih =>
    intro p phd cur hch hnd
    obtain ⟨hcur, hlkq, hrest⟩ := chainOK_cons_inv hch
    rw [hcur]
    have hnd' : (keys (l₀' ++ [(p, phd), (a, ahd)])).Nodup :=
      (List.nodup_cons.mp (by simpa using hnd)).2
    have hqnot : q.1 ∉ keys (l₀' ++ [(p, phd), (a, ahd)]) :=
      (List.nodup_cons.mp (by simpa using hnd)).1
    have hqp : q.1 ≠ p := fun hh => hqnot (by rw [hh]; simp)
    have hqa : q.1 ≠ a := fun hh => hqnot (by rw [hh]; simp)
    refine chainOK_cons_of ?_ (ih p phd q.2.next hrest hnd')
    rw [lookupA_removeA_ne _ a q.1 hqa, lookupA_updateA_ne _ p q.1 _ hqp]
    exact hlkq

/-- Changing only the payload bytes leaves every structural invariant. -/
theorem wf_data_change {s : AllocState} {l : List (Nat × Header)} (d : DataT)
    (hwf : WF s l) : WF { s with data := d } l := hwf

/-- `free` preserves well-formedness for a null pointer or any pointer at
least one header size above zero: releasing the physical tail cuts the chain
by one block, releasing anything else marks one block free, and an unmapped
pointer (undefined behaviour in C) leaves the model state alone. -/
theorem free_wf (s : AllocState) (b : Option Nat)
    (hb : ∀ p, b = some p → headerSize ≤ p)
    {l : List (Nat × Header)} (hwf : WF s l) : ∃ l', WF (free s b) l' := by
  obtain ⟨hch, htl, hsub, hnd, hcg, hle⟩ := hwf
  cases b with
  | none => exact ⟨l, ⟨hch, htl, hsub, hnd, hcg, hle⟩⟩
  | some p =>
    have hps : headerSize ≤ p := hb p rfl
    have hpa : p - headerSize + headerSize = p := Nat.sub_add_cancel hps
    cases hlk : lookupA s.heap (p - headerSize) with
    | none =>
      refine ⟨l, ?_⟩
      have hres : free s (some p) = s := by simp [free, hlk]
      rw [hres]
      exact ⟨hch, htl, hsub, hnd, hcg, hle⟩
    | some hd =>
      have hmemk : p - headerSize ∈ keys l := hsub _ (mem_keys_of_lookupA hlk)
      obtain ⟨w, hwmem⟩ := exists_of_mem_keys hmemk
      have hw : w = hd := by
        have h2 := chainOK_mem_lookup hch hwmem
        simp only at h2
        rw [hlk] at h2
        exact (Option.some_injective _ h2).symm
      rw [hw] at hwmem
      have hndl : (keys l).Nodup := keys_nodup_of_contig hcg
      by_cases hcond : p + hd.size = s.brk
      · have hend : p - headerSize + headerSize + hd.size = s.brk := by
          rw [hpa]; exact hcond
        obtain ⟨l₁, hdecomp⟩ := end_eq_brk_last l s.brk hcg hle (p - headerSize, hd)
          hwmem hend
        rcases List.eq_nil_or_concat l₁ with h1 | ⟨l₀, pq, h1⟩
        · rw [h1, List.nil_append] at hdecomp
          subst hdecomp
          obtain ⟨hcur, _, _⟩ := chainOK_cons_inv (show chainOK s.heap s.head
            ((p - headerSize, hd) :: []) = true from hch)
          have hhead : s.head = some (p - headerSize) := hcur
          have htail : s.tail = some (p - headerSize) := by rw [htl]; simp
          have hres := free_sole_eq s (p - headerSize) hd hlk hend hhead htail
          rw [hpa] at hres
          refine ⟨[], ?_⟩
          rw [hres]
          refine ⟨rfl, rfl, ?_, ?_, rfl, rfl⟩
          · intro x hx
            exfalso
            have hx2 : x ∈ keys (removeA s.heap (p - headerSize)) := hx
            have hx3 : x ∈ keys s.heap := keys_removeA_sub _ _ _ hx2
            have hx4 := hsub x hx3
            simp only [keys_cons, keys_nil, List.mem_singleton] at hx4
            subst hx4
            have h5 := lookupA_removeA_self s.heap (p - headerSize) hnd
            have h6 := lookupA_isSome_of_mem hx2
            rw [h5] at h6
            simp at h6
          · exact nodup_keys_removeA _ _ hnd
        · rw [List.concat_eq_append] at h1
          obtain ⟨p₂, phd⟩ := pq
          rw [h1, List.append_assoc, List.singleton_append] at hdecomp
          subst hdecomp
          have htail : s.tail = some (p - headerSize) := by
            rw [htl]
            have h2 : keys (l₀ ++ [(p₂, phd), (p - headerSize, hd)]) =
                (keys l₀ ++ [p₂]) ++ [p - headerSize] := by simp
            rw [h2, List.getLast?_concat]
          have hres := free_pred_eq s (p - headerSize) hd hlk hend l₀ p₂ phd hch
            hndl htail
          rw [hpa] at hres
          have hmem_p₂ : (p₂, phd) ∈ l₀ ++ [(p₂, phd), (p - headerSize, hd)] :=
            List.mem_append_right _ (by simp)
          have hlk_p₂ : lookupA s.heap p₂ = some phd := chainOK_mem_lookup hch hmem_p₂
          have hup_keys : keys (updateA s.heap p₂ ⟨phd.size, phd.is_free, none⟩) =
              keys s.heap := keys_updateA_of_mem _ (mem_keys_of_lookupA hlk_p₂)
          have hnd_up : (keys (updateA s.heap p₂ ⟨phd.size, phd.is_free, none⟩)).Nodup := by
            rw [hup_keys]; exact hnd
          refine ⟨l₀ ++ [(p₂, ⟨phd.size, phd.is_free, none⟩)], ?_⟩
          rw [hres]
          refine ⟨?_, ?_, ?_, ?_, ?_, ?_⟩
          · exact chainOK_retarget (p - headerSize) hd l₀ p₂ phd s.head hch hndl
          · show some p₂ =
              (keys (l₀ ++ [(p₂, ⟨phd.size, phd.is_free, none⟩)])).getLast?
            have h2 : keys (l₀ ++ [(p₂, (⟨phd.size, phd.is_free, none⟩ : Header))]) =
                keys l₀ ++ [p₂] := by simp
            rw [h2, List.getLast?_concat]
          · intro x hx
            have hx2 : x ∈ keys (removeA
                (updateA s.heap p₂ ⟨phd.size, phd.is_free, none⟩) (p - headerSize)) := hx
            have hxa : x ≠ p - headerSize := by
              intro hh
              subst hh
              have h5 := lookupA_removeA_self _ (p - headerSize) hnd_up
              have h6 := lookupA_isSome_of_mem hx2
              rw [h5] at h6
              simp at h6
            have hx3 := keys_removeA_sub _ _ _ hx2
            rw [hup_keys] at hx3
            have hx4 := hsub x hx3
            simp only [keys_append, keys_cons, keys_nil, List.mem_append,
              List.mem_cons] at hx4 ⊢
            rcases hx4 with h | h
            · exact Or.inl h
            · rcases h with h | h | h
              · exact Or.inr (Or.inl h)
              · exact absurd h hxa
              · simp at h
          · show (keys (removeA
                (updateA s.heap p₂ ⟨phd.size, phd.is_free, none⟩) (p - headerSize))).Nodup
            exact nodup_keys_removeA _ _ hnd_up
          · apply (contigOK_iff _).mpr
            have hcg' := (contigOK_iff _).mp hcg
            obtain ⟨hC1, _, hC3⟩ := List.chain'_append.mp hcg'
            apply List.chain'_append.mpr
            refine ⟨hC1, List.chain'_singleton _, ?_⟩
            intro x hx y hy
            have hy2 : y = (p₂, (⟨phd.size, phd.is_free, none⟩ : Header)) := by
              simp only [List.head?_cons, Option.mem_def, Option.some.injEq] at hy
              exact hy.symm
            subst hy2
            have h3 := hC3 x hx (p₂, phd) rfl
            simpa using h3
          · apply lastEndOK_intro
            intro q hq
            have h2 : (l₀ ++ [(p₂, (⟨phd.size, phd.is_free, none⟩ : Header))]).getLast? =
                some (p₂, ⟨phd.size, phd.is_free, none⟩) := List.getLast?_concat _
            rw [h2] at hq
            obtain rfl := Option.some_injective _ hq.symm
            show p₂ + headerSize + phd.size = s.brk - (headerSize + hd.size)
            have hadj : p₂ + headerSize + phd.size = p - headerSize := by
              have hcg' := (contigOK_iff _).mp hcg
              obtain ⟨_, hC2, _⟩ := List.chain'_append.mp hcg'
              exact (List.chain'_cons.mp hC2).1
            omega
      · have hres : free s (some p) =
            { s with heap := updateA s.heap (p - headerSize) ⟨hd.size, true, hd.next⟩ } := by
          simp only [free, hlk]
          rw [if_neg hcond]
          simp [setIsFree, hlk]
        exact ⟨l.map (flipFree (p - headerSize) true),
          hres ▸ wf_setFlag ⟨hch, htl, hsub, hnd, hcg, hle⟩ hlk true⟩

/-- `calloc` preserves well-formedness: rejection paths keep the state,
success delegates to `malloc` and then only zero-fills payload bytes. -/
theorem calloc_wf (growOk : Bool) (s : AllocState) (num esize : Nat)
    {l : List (Nat × Header)} (hwf : WF s l) :
    ∃ l', WF (calloc growOk s num esize).2 l' := by
  by_cases h0 : num = 0 ∨ esize = 0
  · exact ⟨l, by simpa [calloc, h0] using hwf⟩
  · by_cases h1 : esize ≠ num * esize % W / num
    · exact ⟨l, by simpa [calloc, h0, h1] using hwf⟩
    · obtain ⟨l₁, hwf₁⟩ := malloc_wf growOk s (num * esize % W) hwf
      rcases hm : malloc growOk s (num * esize % W) with ⟨ob, s₁⟩
      rw [hm] at hwf₁
      cases ob with
      | none =>
        refine ⟨l₁, ?_⟩
        have hres : (calloc growOk s num esize).2 = s₁ := by
          simp [calloc, h0, h1, hm]
        rw [hres]
        exact hwf₁
      | some bb =>
        refine ⟨l₁, ?_⟩
        have hres : (calloc growOk s num esize).2 =
            { s₁ with data := memsetZeroData s₁.data bb (num * esize % W) } := by
          simp [calloc, h0, h1, hm]
        rw [hres]
        exact wf_data_change _ hwf₁

/-- `realloc` preserves well-formedness: it only composes `malloc`, a byte
copy, and `free`. -/
theorem realloc_wf (growOk : Bool) (s : AllocState) (b : Option Nat) (size : Nat)
    (hb : ∀ p, b = some p → headerSize ≤ p)
    {l : List (Nat × Header)} (hwf : WF s l) :
    ∃ l', WF (realloc growOk s b size).2 l' := by
  cases b with
  | none => exact malloc_wf growOk s size hwf
  | some p =>
    by_cases hsz : size = 0
    · have hres : (realloc growOk s (some p) size).2 = (malloc growOk s size).2 := by
        simp [realloc, hsz]
      rw [hres]
      exact malloc_wf growOk s size hwf
    · cases hlk : lookupA s.heap (p - headerSize) with
      | none => exact ⟨l, by simpa [realloc, hsz, hlk] using hwf⟩
      | some hd =>
        by_cases hfit : hd.size ≥ size
        · exact ⟨l, by simpa [realloc, hsz, hlk, hfit] using hwf⟩
        · obtain ⟨l₁, hwf₁⟩ := malloc_wf growOk s size hwf
          rcases hm : malloc growOk s size with ⟨ob, s₁⟩
          rw [hm] at hwf₁
          cases ob with
          | none =>
            refine ⟨l₁, ?_⟩
            have hres : (realloc growOk s (some p) size).2 = s₁ := by
              simp [realloc, hsz, hlk, hfit, hm]
            rw [hres]
            exact hwf₁
          | some rb =>
            have hwf₂ : WF { s₁ with
                data := memcpyData s₁.data rb p (readSizeAt s₁.heap (p - headerSize)) }
                l₁ := wf_data_change _ hwf₁
            obtain ⟨l₂, hwf₃⟩ := free_wf _ (some p)
              (fun q hq => by rw [Option.some_injective _ hq.symm] at *; exact hb p rfl)
              hwf₂
            refine ⟨l₂, ?_⟩
            have hres : (realloc growOk s (some p) size).2 =
                free { s₁ with
                  data := memcpyData s₁.data rb p (readSizeAt s₁.heap (p - headerSize)) }
                  (some p) := by
              simp [realloc, hsz, hlk, hfit, hm]
            rw [hres]
            exact hwf₃

/-! ### The claims -/

/-- C1: for a positive request, `malloc` scans the chain from `head` in list
order; when `firstFitIn` (the spec's first free block with capacity at least
`size`) names a block, `malloc` returns exactly that block's payload address
`b₀ + headerSize`, rewrites only that header with `is_free` flipped to
`false` and `size`/`next` untouched (capacity may exceed the request), and no
later matching block is chosen over this first one. -/
theorem malloc_first_fit (growOk : Bool) (s : AllocState) (l : List (Nat × Header))
    (size : Nat) (b₀ : Nat) (hsz : size ≠ 0)
    (hch : chainOK s.heap s.head l = true) (hnd : (keys l).Nodup)
    (hff : firstFitIn size l = some b₀) :
    ∃ hd, lookupA s.heap b₀ = some hd ∧ hd.is_free = true ∧ size ≤ hd.size ∧
      malloc growOk s size =
        (some (b₀ + headerSize),
         { s with heap := updateA s.heap b₀ ⟨hd.size, false, hd.next⟩ }) := by
  obtain ⟨hd, hlk, hfree, hfit⟩ := firstFitIn_found hch hff
  refine ⟨hd, hlk, hfree, hfit, ?_⟩
  have hcfb : check_for_block s size = some b₀ :=
    (check_for_block_eq s size l hch hnd).trans hff
  simp [malloc, hsz, hcfb, setIsFree, hlk]

theorem malloc_first_fit_witness :
    ∃ hd, lookupA exTwoFree.heap 100 = some hd ∧ hd.is_free = true ∧ 5 ≤ hd.size ∧
      malloc true exTwoFree 5 =
        (some (100 + headerSize),
         { exTwoFree with heap := updateA exTwoFree.heap 100 ⟨hd.size, false, hd.next⟩ }) :=
  malloc_first_fit true exTwoFree
    [(100, ⟨10, true, some 134⟩), (134, ⟨50, true, none⟩)] 5 100
    (by decide) (by decide) (by decide) (by decide)

/-- C4: a positive request with no free block of sufficient capacity in the
chain (spec-side first fit finds nothing) and a failing arena growth makes
`malloc` return `NULL` with the state — `head`, `tail`, every header, the
payload bytes and the break — exactly as before, so the caller may retry. -/
theorem malloc_growth_failure (s : AllocState) (l : List (Nat × Header))
    (size : Nat) (hsz : size ≠ 0)
    (hch : chainOK s.heap s.head l = true) (hnd : (keys l).Nodup)
    (hff : firstFitIn size l = none) :
    malloc false s size = (none, s) := by
  have hcfb : check_for_block s size = none :=
    (check_for_block_eq s size l hch hnd).trans hff
  simp [malloc, hsz, hcfb]

theorem malloc_growth_failure_witness :
    malloc false exTwoUsed 7 = (none, exTwoUsed) :=
  malloc_growth_failure exTwoUsed
    [(100, ⟨10, false, some 134⟩), (134, ⟨20, false, none⟩)] 7
    (by decide) (by decide) (by decide) (by decide)

/-- C2: releasing a block whose payload end equals the break lowers the
break by exactly `headerSize + size` for that one block — one single shrink
step, with no cascade into a newly exposed free tail, since the function
returns straight after the one `sbrk` decrement.  If the block is the sole
block (`head = tail =` this block), `head` and `tail` are reset to `NULL`
and nothing else changes; otherwise the predecessor is found by scanning
from `head`, its `next` is cleared, and it becomes the new `tail`. -/
theorem free_tail_shrink (s : AllocState) (a : Nat) (hd : Header)
    (hlk : lookupA s.heap a = some hd)
    (hend : a + headerSize + hd.size = s.brk) :
    (s.head = some a → s.tail = some a →
       free s (some (a + headerSize)) =
         { s with heap := removeA s.heap a,
                  brk := s.brk - (headerSize + hd.size),
                  head := none, tail := none }) ∧
    (∀ l₀ p phd,
       chainOK s.heap s.head (l₀ ++ [(p, phd), (a, hd)]) = true →
       (keys (l₀ ++ [(p, phd), (a, hd)])).Nodup →
       s.tail = some a →
       free s (some (a + headerSize)) =
         { s with heap := removeA (updateA s.heap p ⟨phd.size, phd.is_free, none⟩) a,
                  brk := s.brk - (headerSize + hd.size),
                  tail := some p }) :=
  ⟨fun hhead htail => free_sole_eq s a hd hlk hend hhead htail,
   fun l₀ p phd hch hnd htail => free_pred_eq s a hd hlk hend l₀ p phd hch hnd htail⟩

theorem free_tail_shrink_witness :
    free exTwoUsed (some (134 + headerSize)) =
      { exTwoUsed with
          heap := removeA (updateA exTwoUsed.heap 100 ⟨10, false, none⟩) 134,
          brk := exTwoUsed.brk - (headerSize + 20),
          tail := some 100 } :=
  (free_tail_shrink exTwoUsed 134 ⟨20, false, none⟩ (by decide) (by decide)).2
    [] 100 ⟨10, false, some 134⟩ (by decide) (by decide) (by decide)

/-- C3: releasing an allocated block whose payload end is not the current
break only sets that block's `is_free` flag: the state is the original one
with just that header cell rewritten, the rewritten header keeps its `size`
and `next` fields, and every other address reads back unchanged — so `head`,
`tail`, the break, the payload bytes and all other blocks are untouched and
no merging happens. -/
theorem free_nontail_marks (s : AllocState) (a : Nat) (hd : Header)
    (hlk : lookupA s.heap a = some hd)
    (hne : a + headerSize + hd.size ≠ s.brk) :
    free s (some (a + headerSize)) =
      { s with heap := updateA s.heap a { hd with is_free := true } } ∧
    lookupA (updateA s.heap a { hd with is_free := true }) a =
      some ⟨hd.size, true, hd.next⟩ ∧
    ∀ b, b ≠ a →
      lookupA (updateA s.heap a { hd with is_free := true }) b = lookupA s.heap b := by
  refine ⟨?_, ?_, ?_⟩
  · have hb : a + headerSize - headerSize = a := Nat.add_sub_cancel a headerSize
    simp only [free, hb, hlk]
    rw [if_neg hne]
    simp [setIsFree, hlk]
  · simpa using lookupA_updateA_self s.heap a { hd with is_free := true }
  · exact fun b hb => lookupA_updateA_ne s.heap a b _ hb

theorem free_nontail_marks_witness :
    free exTwoUsed (some (100 + headerSize)) =
      { exTwoUsed with
          heap := updateA exTwoUsed.heap 100
            { (⟨10, false, some 134⟩ : Header) with is_free := true } } ∧
    lookupA (updateA exTwoUsed.heap 100
        { (⟨10, false, some 134⟩ : Header) with is_free := true }) 100 =
      some ⟨10, true, some 134⟩ ∧
    ∀ b, b ≠ 100 →
      lookupA (updateA exTwoUsed.heap 100
        { (⟨10, false, some 134⟩ : Header) with is_free := true }) b =
      lookupA exTwoUsed.heap b :=
  free_nontail_marks exTwoUsed 100 ⟨10, false, some 134⟩ (by decide) (by decide)

/-- C5: `calloc` returns a null pointer and leaves the state (in particular
the break) untouched whenever a argument is zero or the `size_t` product
`num * esize` overflows; the code detects the overflow by dividing the
wrapped product back by `num` and comparing with `esize`, and that check
catches every overflow. -/
theorem calloc_rejects (growOk : Bool) (s : AllocState) (num esize : Nat)
    (h : num = 0 ∨ esize = 0 ∨ W ≤ num * esize) :
    calloc growOk s num esize = (none, s) := by
  by_cases h0 : num = 0 ∨ esize = 0
  · simp [calloc, h0]
  · push_neg at h0
    rcases h with h | h | h
    · exact absurd h h0.1
    · exact absurd h h0.2
    · have hnum : 0 < num := Nat.pos_of_ne_zero h0.1
      have hWpos : 0 < W := by norm_num [W]
      have hlt : num * esize % W < esize * num :=
        lt_of_lt_of_le (Nat.mod_lt _ hWpos) (by rw [mul_comm]; exact h)
      have hdiv : num * esize % W / num < esize := (Nat.div_lt_iff_lt_mul hnum).mpr hlt
      have hne : esize ≠ num * esize % W / num := (Nat.ne_of_lt hdiv).symm
      simp [calloc, h0.1, h0.2, hne]

theorem calloc_rejects_witness :
    calloc true exOneFree (2 ^ 32) (2 ^ 32) = (none, exOneFree) :=
  calloc_rejects true exOneFree (2 ^ 32) (2 ^ 32) (by right; right; norm_num [W])

/-- C6: resizing to a request the block's recorded capacity already covers
returns the very same pointer and the very same state: no copy, no shrink,
no capacity adjustment. -/
theorem realloc_in_place (growOk : Bool) (s : AllocState) (b : Nat) (size : Nat)
    (hd : Header) (hsz : size ≠ 0)
    (hlk : lookupA s.heap (b - headerSize) = some hd)
    (hfit : size ≤ hd.size) :
    realloc growOk s (some b) size = (some b, s) := by
  simp [realloc, hsz, hlk, ge_iff_le, hfit]

theorem realloc_in_place_witness :
    realloc true exTwoUsed (some 124) 5 = (some 124, exTwoUsed) :=
  realloc_in_place true exTwoUsed 124 5 ⟨10, false, some 134⟩ (by decide) (by decide)
    (by decide)

/-- C7: when the capacity is insufficient and the nested `malloc` fails,
`realloc` returns a null pointer and the state is exactly the original one —
the old block is not freed, its `is_free` flag and payload bytes included. -/
theorem realloc_failure_preserves (growOk : Bool) (s : AllocState) (b : Nat)
    (size : Nat) (hd : Header) (hsz : size ≠ 0)
    (hlk : lookupA s.heap (b - headerSize) = some hd)
    (hlt : hd.size < size)
    (hfail : (malloc growOk s size).1 = none) :
    realloc growOk s (some b) size = (none, s) := by
  have hm := malloc_eq_none growOk s size hfail
  have hnotfit : ¬ hd.size ≥ size := not_le.mpr hlt
  simp [realloc, hsz, hlk, hnotfit, hm]

theorem realloc_failure_preserves_witness :
    realloc false exTwoUsed (some 124) 50 = (none, exTwoUsed) :=
  realloc_failure_preserves false exTwoUsed 124 50 ⟨10, false, some 134⟩ (by decide)
    (by decide) (by decide) (by decide)

/-- C8: on the LP64 layout the source's comments assume, `sizeof(union
header)` is 24 bytes — `max` of the 24-byte metadata struct and the 16-byte
`alignment` stub — so the fixed header size is NOT a multiple of 16 and the
payload sits at offset 24 ≡ 8 (mod 16) from the header, contradicting the
code's own "memory aligned to 16 bytes" comment; the recovery contract
(payload is exactly `headerSize` past the header and the header is recovered
by subtracting one header size) does hold. -/
theorem header_layout_not_16_aligned :
    headerSize = 24 ∧ headerSize % 16 = 8 ∧
    ∀ a : Nat, a + headerSize - headerSize = a :=
  ⟨by decide, by decide, fun a => Nat.add_sub_cancel a headerSize⟩

/-- C10: `realloc(p, 0)` falls into the `!size` branch and just calls
`malloc(0)`, which returns `NULL` and changes nothing: the old block is not
released, its header and payload bytes are untouched, so `p` stays a valid
handle (unlike allocators where a zero-size resize frees the block). -/
theorem realloc_zero_size (growOk : Bool) (s : AllocState) (p : Nat) :
    realloc growOk s (some p) 0 = (none, s) := by
  simp [realloc, malloc]

/-- C9: starting from any well-formed allocator state, after every completed
`malloc`, `free`, `calloc` or `realloc` (for pointer arguments that are null
or at least one header size, as every pointer this allocator hands out is)
some enumeration `l` of the blocks again satisfies the spec's invariants:
`head` is empty iff `tail` is empty iff the arena holds zero blocks, and the
linked sequence from `head` visits blocks in strictly increasing address
order, ending at `tail`, whose `next` link is empty. -/
theorem ops_preserve_invariants (growOk : Bool) (s : AllocState)
    (l : List (Nat × Header)) (hwf : WF s l) :
    (∀ size, Inv (malloc growOk s size).2) ∧
    (∀ b, (∀ p, b = some p → headerSize ≤ p) → Inv (free s b)) ∧
    (∀ num esize, Inv (calloc growOk s num esize).2) ∧
    (∀ b size, (∀ p, b = some p → headerSize ≤ p) →
      Inv (realloc growOk s b size).2) := by
  refine ⟨?_, ?_, ?_, ?_⟩
  · intro size
    obtain ⟨l', h⟩ := malloc_wf growOk s size hwf
    exact ⟨l', wf_listInv h⟩
  · intro b hb
    obtain ⟨l', h⟩ := free_wf s b hb hwf
    exact ⟨l', wf_listInv h⟩
  · intro num esize
    obtain ⟨l', h⟩ := calloc_wf growOk s num esize hwf
    exact ⟨l', wf_listInv h⟩
  · intro b size hb
    obtain ⟨l', h⟩ := realloc_wf growOk s b size hb hwf
    exact ⟨l', wf_listInv h⟩

theorem ops_preserve_invariants_witness : Inv (malloc true exOneFree 5).2 :=
  (ops_preserve_invariants true exOneFree [(100, ⟨10, true, none⟩)] (by decide)).1 5

end MemoryAlloc
